import Mathlib

/-!
# Verification of busybody (src/busybody.py)

A shallow embedding of the busybody virtual-environment scanner and the
proofs of the specification claims about it.

The Python source manipulates three kinds of external state, each of which
is modelled explicitly:

* the filesystem metadata consulted by `is_virtualenv` (`os.path.isdir`,
  `os.path.exists`, `os.path.isfile`) becomes an abstract record of
  boolean-valued predicates on path strings (`FS`);
* the directory tree walked by `get_virtualenvs` (`os.walk`) becomes a
  finite rose tree of named directories (`Dir`), each node carrying the
  boolean the classifier would return for it;
* the subprocesses launched by `analyze_virtualenv` (`subprocess.run`)
  become a function from command line to outcome (`Run`), where an outcome
  is either a completed process (exit code, stdout, stderr) or a raised
  exception.

Python string primitives (slicing, `str.split` with a literal separator,
`str.strip`, `str.join`) are re-implemented character by character on
`String.data` so that every definition evaluates by kernel reduction.
-/

/-! ## Python string primitives -/

/-- Python slicing `s[:n]` (character based, total on short strings). -/
def pyTake (s : String) (n : Nat) : String := (s.data.take n).asString

/-- Python slicing `s[n:]` (character based, total on short strings). -/
def pyDrop (s : String) (n : Nat) : String := (s.data.drop n).asString

/-- Python `str.strip()`: remove leading and trailing whitespace. -/
def pyStrip (s : String) : String :=
  (((s.data.dropWhile Char.isWhitespace).reverse.dropWhile
      Char.isWhitespace).reverse).asString

/-- Worker for `pySplit`.  `acc` is the (reversed) current chunk; a positive
`skip` means we are still consuming the characters of a separator that was
matched at an earlier position.  Splitting is on leftmost, non-overlapping
occurrences, exactly as Python's `str.split(sep)` with a literal separator. -/
def pySplitAux (sep : List Char) (acc : List Char) (skip : Nat) :
    List Char → List (List Char)
  | [] => [acc.reverse]
  | c :: rest =>
    match skip with
    | n+1 => pySplitAux sep acc n rest
    | 0 =>
      if sep.isPrefixOf (c :: rest) then
        acc.reverse :: pySplitAux sep [] (sep.length - 1) rest
      else pySplitAux sep (c :: acc) 0 rest

/-- Python `s.split(sep)` for a non-empty literal separator `sep`. -/
def pySplit (s sep : String) : List String :=
  (pySplitAux sep.data [] 0 s.data).map List.asString

/-- Python `sep.join(l)`. -/
def pyJoin (sep : String) : List String → String
  | [] => ""
  | x :: xs => xs.foldl (fun acc y => acc ++ sep ++ y) x

/-- `os.path.join` for one relative POSIX component, as used throughout the
source (`os.path.join(a, b)` with `b` relative and non-empty). -/
def ospath_join (a b : String) : String := a ++ "/" ++ b

/-! ## Environment Classifier (`is_virtualenv`, src/busybody.py lines 10-36)

The filesystem metadata the classifier consults is abstracted as three
boolean predicates on paths. -/

/-- The filesystem-metadata queries used by `is_virtualenv`:
`os.path.isdir`, `os.path.exists` and `os.path.isfile`. -/
structure FS where
  isdir : String → Bool
  path_exists : String → Bool
  isfile : String → Bool

/-- The list `results` of the eight evidence checks evaluated by
`is_virtualenv`, in source order. -/
def venv_checks (fs : FS) (path : String) : List Bool :=
  let python_binary := ospath_join (ospath_join path "bin") "python"
  let pip_binary := ospath_join (ospath_join path "bin") "pip"
  let activate_script := ospath_join (ospath_join path "bin") "activate"
  let include_dir := ospath_join path "include"
  let lib_dir := ospath_join path "lib"
  let share_dir := ospath_join path "share"
  let env_config := ospath_join path "pyvenv.cfg"
  [fs.isdir path,
   fs.path_exists python_binary,
   fs.path_exists pip_binary,
   fs.path_exists activate_script,
   fs.isdir include_dir,
   fs.isdir lib_dir,
   fs.isdir share_dir,
   fs.isfile env_config]

/-- `is_virtualenv`: `sum(results) >= len(checks) - 2` where `sum` over
Python booleans counts the `True` entries. -/
def is_virtualenv (fs : FS) (path : String) : Bool :=
  let checks := venv_checks fs path
  decide (checks.length - 2 ≤ checks.count true)

/-- Number of the eight evidence checks that pass. -/
def venv_evidence_count (fs : FS) (path : String) : Nat :=
  (venv_checks fs path).count true

/-- C1: `is_virtualenv` returns `true` iff at least 6 of the 8 evidence
checks pass; with all 8 present it returns `true`, with exactly 2 absent
(6 passing) it returns `true`, and with 3 or more absent (at most 5
passing) it returns `false`. -/
theorem is_virtualenv_six_of_eight (fs : FS) (path : String) :
    (is_virtualenv fs path = true ↔ 6 ≤ venv_evidence_count fs path)
    ∧ (venv_evidence_count fs path = 8 → is_virtualenv fs path = true)
    ∧ (venv_evidence_count fs path = 6 → is_virtualenv fs path = true)
    ∧ (venv_evidence_count fs path ≤ 5 → is_virtualenv fs path = false) := by
  have hlen : (venv_checks fs path).length = 8 := rfl
  have hiff : is_virtualenv fs path = true ↔ 6 ≤ venv_evidence_count fs path := by
    simp only [is_virtualenv, venv_evidence_count, hlen, decide_eq_true_eq]
  refine ⟨hiff, fun h8 => hiff.mpr (by omega), fun h6 => hiff.mpr (by omega),
    fun h5 => ?_⟩
  have : ¬ is_virtualenv fs path = true := fun h => by
    have := hiff.mp h
    omega
  simpa using this

/-- A filesystem on which every check passes. -/
def fs_all : FS := ⟨fun _ => true, fun _ => true, fun _ => true⟩

/-- A filesystem on which exactly two checks fail for path "env":
`env/share` is not a directory and `env/bin/pip` does not exist. -/
def fs_two_missing : FS :=
  ⟨fun p => !(p == "env/share"), fun p => !(p == "env/bin/pip"), fun _ => true⟩

/-- A filesystem on which every check fails. -/
def fs_none : FS := ⟨fun _ => false, fun _ => false, fun _ => false⟩

theorem is_virtualenv_six_of_eight_witness :
    is_virtualenv fs_all "env" = true
    ∧ is_virtualenv fs_two_missing "env" = true
    ∧ is_virtualenv fs_none "env" = false :=
  ⟨(is_virtualenv_six_of_eight fs_all "env").2.1 (by decide),
   (is_virtualenv_six_of_eight fs_two_missing "env").2.2.1 (by decide),
   (is_virtualenv_six_of_eight fs_none "env").2.2.2 (by decide)⟩

/-! ## Dependency Parser (`decompose_dependency`, src/busybody.py lines 108-125)

Python's `tuple(...)` return values have no fixed arity (the `==` branch
returns one component per segment of the full split), so the result type is
`List String`; a well-formed "pair" is a two-element list.

The membership test `"==" in dependency` is modelled as the full split
having more than one part, which holds exactly when the separator occurs. -/

/-- `decompose_dependency`.  Branches in source order:
`-e git+...` lines, other `-e ` lines, lines containing `==`, and the
fallback.  `split.getLastD ""` models `split[-1]` (the split of a string is
never empty, so the default is never used) and `split.dropLast` models
`split[:-1]`. -/
def decompose_dependency (dependency : String) : List String :=
  if pyTake dependency 3 = "-e " ∧ pyTake (pyDrop dependency 3) 4 = "git+" then
    let split := pySplit (pyDrop dependency 3) "@"
    if split.length = 2 then split
    else [pyJoin "@" split.dropLast, split.getLastD ""]
  else if pyTake dependency 3 = "-e " then
    [pyDrop dependency 3, ""]
  else if 1 < (pySplit dependency "==").length then
    pySplit dependency "=="
  else
    [dependency, ""]

/-- The split of any string on any separator is non-empty. -/
theorem pySplitAux_ne_nil (sep : List Char) :
    ∀ (l acc : List Char) (skip : Nat), pySplitAux sep acc skip l ≠ [] := by
  intro l
  induction l with
  | nil => intro acc skip; simp [pySplitAux]
  | cons c rest ih =>
    intro acc skip
    cases skip with
    | succ n => simpa only [pySplitAux] using ih acc n
    | zero =>
      simp only [pySplitAux]
      split
      · simp
      · exact ih (c :: acc) 0

theorem pySplit_ne_nil (s sep : String) : pySplit s sep ≠ [] := by
  simp only [pySplit, ne_eq, List.map_eq_nil_iff]
  exact pySplitAux_ne_nil sep.data s.data [] 0

/-- C4 counterexample: on a line with two occurrences of `==` the code
returns the full three-part split, not the pair obtained by splitting on
the first occurrence. -/
theorem decompose_dependency_multi_eq_not_pair :
    pyTake "a==b==c" 3 ≠ "-e "
    ∧ 1 < (pySplit "a==b==c" "==").length
    ∧ decompose_dependency "a==b==c" = ["a", "b", "c"]
    ∧ decompose_dependency "a==b==c" ≠ ["a", "b==c"] := by decide

/-- C4 (amended): for a line without the `-e ` prefix that contains `==`,
`decompose_dependency` returns the full split on every occurrence of `==`;
when `==` occurs exactly once this is exactly the pair (text before, text
after). -/
theorem decompose_dependency_eq_branch (s : String)
    (h1 : pyTake s 3 ≠ "-e ") (h2 : 1 < (pySplit s "==").length) :
    decompose_dependency s = pySplit s "=="
    ∧ ((pySplit s "==").length = 2 →
        decompose_dependency s
          = [(pySplit s "==").headD "", (pySplit s "==").getLastD ""]) := by
  have hd : decompose_dependency s = pySplit s "==" := by
    unfold decompose_dependency
    rw [if_neg (fun h => h1 h.1), if_neg h1, if_pos h2]
  refine ⟨hd, fun hlen => ?_⟩
  obtain ⟨a, b, hab⟩ := List.length_eq_two.mp hlen
  rw [hd, hab]
  rfl

theorem decompose_dependency_eq_branch_witness :
    decompose_dependency "requests==2.31.0" = ["requests", "2.31.0"] := by
  have h := decompose_dependency_eq_branch "requests==2.31.0" (by decide) (by decide)
  rw [h.2 (by decide)]
  decide

/-- C6: the three editable / fallback branches of `decompose_dependency`:
a `-e git+` line is split on `@` (two parts are returned as is; with more
parts, all but the last are rejoined with `@` and the last is the version);
a plain `-e ` line yields (remainder, ""); a line with neither the `-e `
prefix nor `==` is returned verbatim with an empty version. -/
theorem decompose_dependency_editable (s : String) :
    ((pyTake s 3 = "-e " ∧ pyTake (pyDrop s 3) 4 = "git+") →
      ((pySplit (pyDrop s 3) "@").length = 2 →
          decompose_dependency s = pySplit (pyDrop s 3) "@")
      ∧ (2 < (pySplit (pyDrop s 3) "@").length →
          decompose_dependency s
            = [pyJoin "@" (pySplit (pyDrop s 3) "@").dropLast,
               (pySplit (pyDrop s 3) "@").getLastD ""]))
    ∧ ((pyTake s 3 = "-e " ∧ pyTake (pyDrop s 3) 4 ≠ "git+") →
        decompose_dependency s = [pyDrop s 3, ""])
    ∧ ((pyTake s 3 ≠ "-e " ∧ ¬ 1 < (pySplit s "==").length) →
        decompose_dependency s = [s, ""]) := by
  refine ⟨fun hgit => ⟨fun h2 => ?_, fun h3 => ?_⟩, fun he => ?_, fun ho => ?_⟩
  · unfold decompose_dependency
    rw [if_pos hgit]
    simp only [h2, if_pos]
  · unfold decompose_dependency
    rw [if_pos hgit]
    have : (pySplit (pyDrop s 3) "@").length ≠ 2 := by omega
    simp only [this, if_false]
  · unfold decompose_dependency
    rw [if_neg (fun h => he.2 h.2), if_pos he.1]
  · unfold decompose_dependency
    rw [if_neg (fun h => ho.1 h.1), if_neg ho.1, if_neg ho.2]

theorem decompose_dependency_editable_witness :
    decompose_dependency "-e git+https://github.com/x/y.git@abcdef"
        = ["git+https://github.com/x/y.git", "abcdef"]
    ∧ decompose_dependency "-e git+https://u@h/y.git@v1"
        = ["git+https://u@h/y.git", "v1"]
    ∧ decompose_dependency "-e /local/path/pkg" = ["/local/path/pkg", ""]
    ∧ decompose_dependency "numpy" = ["numpy", ""] := by
  refine ⟨?_, ?_, ?_, ?_⟩
  · rw [((decompose_dependency_editable "-e git+https://github.com/x/y.git@abcdef").1
      (by decide)).1 (by decide)]
    decide
  · rw [((decompose_dependency_editable "-e git+https://u@h/y.git@v1").1
      (by decide)).2 (by decide)]
    decide
  · rw [(decompose_dependency_editable "-e /local/path/pkg").2.1 (by decide)]
    decide
  · rw [(decompose_dependency_editable "numpy").2.2 (by decide)]

/-! ### C10: `decompose_dependency` raises no exception

The only primitives in the function that can raise in Python are
`str.split` with an empty separator (`ValueError`) and the indexing
`split[-1]` on an empty list (`IndexError`).  The checked variant makes
those failure points explicit; the theorem shows the error paths are
unreachable, so the function is total and never raises. -/

/-- `str.split`, raising on an empty separator. -/
def pySplitChecked (s sep : String) : Except String (List String) :=
  if sep = "" then .error "ValueError: empty separator"
  else .ok (pySplit s sep)

/-- `l[-1]`, raising on an empty list. -/
def pyLastChecked (l : List String) : Except String String :=
  match l.getLast? with
  | some x => .ok x
  | none => .error "IndexError: list index out of range"

/-- `decompose_dependency` with every potentially-raising primitive routed
through `Except` (the membership test `"==" in dependency` is again the
split having more than one part). -/
def decompose_dependency_checked (dependency : String) :
    Except String (List String) :=
  if pyTake dependency 3 = "-e " ∧ pyTake (pyDrop dependency 3) 4 = "git+" then
    (pySplitChecked (pyDrop dependency 3) "@").bind fun split =>
      if split.length = 2 then .ok split
      else (pyLastChecked split).map fun last => [pyJoin "@" split.dropLast, last]
  else if pyTake dependency 3 = "-e " then .ok [pyDrop dependency 3, ""]
  else (pySplitChecked dependency "==").bind fun parts =>
    if 1 < parts.length then .ok parts else .ok [dependency, ""]

/-- C10: on every string input, including the empty string and strings
shorter than the `-e ` prefix, `decompose_dependency` terminates normally
with a result and none of its potentially-raising primitives raises. -/
theorem decompose_dependency_total (s : String) :
    decompose_dependency_checked s = .ok (decompose_dependency s) := by
  have hsp : ∀ (t sep : String), sep ≠ "" → pySplitChecked t sep = .ok (pySplit t sep) := by
    intro t sep h
    simp [pySplitChecked, h]
  unfold decompose_dependency_checked decompose_dependency
  split
  · rw [hsp _ "@" (by decide)]
    by_cases h2 : (pySplit (pyDrop s 3) "@").length = 2
    · simp [h2, Except.bind]
    · have hne := pySplit_ne_nil (pyDrop s 3) "@"
      obtain ⟨x, hx⟩ := Option.isSome_iff_exists.mp (List.getLast?_isSome.mpr hne)
      have hlast : (pySplit (pyDrop s 3) "@").getLastD "" = x := by
        rw [List.getLastD_eq_getLast?, hx]
        rfl
      simp [h2, Except.bind, pyLastChecked, hx, hlast, Except.map]
  · split
    · rfl
    · rw [hsp _ "==" (by decide)]
      by_cases h1 : 1 < (pySplit s "==").length
      · simp [h1, Except.bind]
      · simp [h1, Except.bind]

/-! ### C7: when the package component is empty -/

theorem string_data_append (a b : String) : (a ++ b).data = a.data ++ b.data := by
  cases a
  cases b
  rfl

theorem string_eq_empty_iff_data (s : String) : s = "" ↔ s.data = [] := by
  constructor
  · intro h
    rw [h]
  · intro h
    have h2 : s.toList = "".toList := h
    exact String.toList_inj.mp h2

theorem isPrefixOf_iff_take (xs : List Char) :
    ∀ ys : List Char, xs.isPrefixOf ys = true ↔ ys.take xs.length = xs := by
  induction xs with
  | nil => intro ys; simp [List.isPrefixOf]
  | cons a as ih =>
    intro ys
    cases ys with
    | nil => simp [List.isPrefixOf]
    | cons b bs =>
      simp only [List.isPrefixOf, Bool.and_eq_true, beq_iff_eq, List.length_cons,
        List.take_succ_cons, List.cons.injEq, ih]
      tauto

/-- The first chunk produced by the split worker extends `acc.reverse`. -/
theorem pySplitAux_head (sep : List Char) :
    ∀ (l acc : List Char) (skip : Nat),
      ∃ u ys, pySplitAux sep acc skip l = (acc.reverse ++ u) :: ys := by
  intro l
  induction l with
  | nil => intro acc skip; exact ⟨[], [], by simp [pySplitAux]⟩
  | cons c rest ih =>
    intro acc skip
    cases skip with
    | succ n =>
      simp only [pySplitAux]
      exact ih acc n
    | zero =>
      simp only [pySplitAux]
      split
      · exact ⟨[], pySplitAux sep [] (sep.length - 1) rest, by simp⟩
      · obtain ⟨u, ys, h⟩ := ih (c :: acc) 0
        exact ⟨c :: u, ys, by simp [h, List.reverse_cons]⟩

/-- The first chunk of a split is empty iff the string is empty or starts
with the separator. -/
theorem pySplit_head_empty (s sep : String) :
    ((pySplit s sep).headD "" = "" ↔ (s = "" ∨ sep.data.isPrefixOf s.data = true)) := by
  cases hd : s.data with
  | nil =>
    have hs : s = "" := (string_eq_empty_iff_data s).mpr hd
    subst hs
    simp [pySplit, pySplitAux, String.asString_nil]
  | cons c rest =>
    simp only [pySplit, hd]
    by_cases hp : sep.data.isPrefixOf (c :: rest) = true
    · have hstep : pySplitAux sep.data [] 0 (c :: rest)
          = [] :: pySplitAux sep.data [] (sep.data.length - 1) rest := by
        simp only [pySplitAux, hp, if_true, List.reverse_nil]
      rw [hstep]
      simp only [List.map_cons, List.headD_cons]
      constructor
      · intro _
        exact Or.inr hp
      · intro _
        rfl
    · obtain ⟨u, ys, h⟩ := pySplitAux_head sep.data rest [c] 0
      have hstep : pySplitAux sep.data [] 0 (c :: rest) = (c :: u) :: ys := by
        simp only [pySplitAux, hp, if_false]
        simpa using h
      rw [hstep]
      simp only [List.map_cons, List.headD_cons]
      constructor
      · intro habs
        have h2 : c :: u = "".toList := List.asString_eq.mp habs
        simp at h2
      · rintro (h1 | h2)
        · rw [(string_eq_empty_iff_data s).mp h1] at hd
          exact absurd hd (by simp)
        · exact absurd h2 hp

/-- A string starting with the separator splits into at least two parts. -/
theorem pySplit_length_ge_two (s sep : String)
    (hpre : sep.data.isPrefixOf s.data = true) (hs : s ≠ "") :
    2 ≤ (pySplit s sep).length := by
  cases hd : s.data with
  | nil => exact absurd ((string_eq_empty_iff_data s).mpr hd) hs
  | cons c rest =>
    rw [hd] at hpre
    simp only [pySplit, hd, pySplitAux, hpre, if_true]
    have hne := pySplitAux_ne_nil sep.data rest [] (sep.data.length - 1)
    have hlen : 1 ≤ (pySplitAux sep.data [] (sep.data.length - 1) rest).length :=
      List.length_pos.mpr hne
    simp only [List.map_cons, List.length_cons, List.length_map]
    omega

theorem pyJoin_cons_ne_empty (sep a : String) (l : List String) (ha : a ≠ "") :
    pyJoin sep (a :: l) ≠ "" := by
  have key : ∀ (t : List String) (acc : String), acc ≠ "" →
      t.foldl (fun x y => x ++ sep ++ y) acc ≠ "" := by
    intro t
    induction t with
    | nil => intro acc h; simpa [List.foldl] using h
    | cons y ys ih =>
      intro acc h
      rw [List.foldl_cons]
      apply ih
      intro habs
      have habs2 : acc ++ sep ++ y = "" := habs
      apply h
      have hdata : (acc ++ sep ++ y).data = [] := by rw [habs2]
      rw [string_data_append, string_data_append] at hdata
      rcases List.append_eq_nil.mp hdata with ⟨h1, _⟩
      rcases List.append_eq_nil.mp h1 with ⟨h2, _⟩
      exact (string_eq_empty_iff_data acc).mpr h2
  exact key l a ha

theorem pyTake_data_eq {s t : String} {n : Nat} (h : pyTake s n = t) :
    s.data.take n = t.data := by
  have h2 := List.asString_eq.mp h
  exact h2

theorem pyDrop_data (s : String) (n : Nat) : (pyDrop s n).data = s.data.drop n :=
  List.toList_asString _

/-- C7 counterexample: the empty line — which a successful `pip freeze`
with empty output produces, since `"".strip().split("\n") == [""]` —
decomposes with an empty package component, as does an editable `git+`
line containing no `@`. -/
theorem decompose_dependency_empty_package :
    decompose_dependency "" = ["", ""]
    ∧ pySplit (pyStrip "") "\n" = [""]
    ∧ decompose_dependency "-e git+u" = ["", "git+u"] := by decide

/-- C7 (amended): the package component of `decompose_dependency` is the
empty string exactly when the line is empty, starts with `==`, is exactly
`"-e "`, or is an editable `git+` line whose remainder contains no `@`;
for every other line the package component is non-empty.  Only the version
component can be empty otherwise. -/
theorem decompose_dependency_package_empty_iff (s : String) :
    ((decompose_dependency s).headD "" = ""
      ↔ (s = "" ∨ pyTake s 2 = "==" ∨ s = "-e "
          ∨ (pyTake s 3 = "-e " ∧ pyTake (pyDrop s 3) 4 = "git+"
              ∧ (pySplit (pyDrop s 3) "@").length = 1))) := by
  by_cases hgit : pyTake s 3 = "-e " ∧ pyTake (pyDrop s 3) 4 = "git+"
  · -- editable git branch
    have h3 : s.data.take 3 = ['-', 'e', ' '] := pyTake_data_eq hgit.1
    have hsdata : s.data = ['-', 'e', ' '] ++ s.data.drop 3 := by
      conv_lhs => rw [← List.take_append_drop 3 s.data]
      rw [h3]
    have hsne : s ≠ "" := by
      intro h
      have := (string_eq_empty_iff_data s).mp h
      rw [this] at hsdata
      exact absurd hsdata (by simp)
    have hden : pyTake s 2 ≠ "==" := by
      intro h
      have h2 : s.data.take 2 = ['=', '='] := pyTake_data_eq h
      rw [hsdata] at h2
      simp at h2
    have hsee : s ≠ "-e " := by
      intro h
      have := hgit.2
      rw [h] at this
      exact absurd this (by decide)
    have h4 : (pyDrop s 3).data.take 4 = ['g', 'i', 't', '+'] := pyTake_data_eq hgit.2
    have hrdata : (pyDrop s 3).data = ['g', 'i', 't', '+'] ++ (pyDrop s 3).data.drop 4 := by
      conv_lhs => rw [← List.take_append_drop 4 (pyDrop s 3).data]
      rw [h4]
    have hrne : pyDrop s 3 ≠ "" := by
      intro h
      have := (string_eq_empty_iff_data _).mp h
      rw [this] at hrdata
      exact absurd hrdata (by simp)
    have hnp : ¬ ("@" : String).data.isPrefixOf (pyDrop s 3).data = true := by
      have hd : ("@" : String).data = ['@'] := rfl
      rw [hd, hrdata]
      have hfalse : (('@' : Char) == 'g') = false := by decide
      simp [List.isPrefixOf, hfalse]
    have hhead : (pySplit (pyDrop s 3) "@").headD "" ≠ "" := by
      intro h
      rw [pySplit_head_empty] at h
      rcases h with h | h
      · exact hrne h
      · exact hnp h
    by_cases h2 : (pySplit (pyDrop s 3) "@").length = 2
    · have hres : decompose_dependency s = pySplit (pyDrop s 3) "@" := by
        unfold decompose_dependency
        rw [if_pos hgit]
        simp only [h2, if_true]
      rw [hres]
      constructor
      · intro h
        exact absurd h hhead
      · rintro (h | h | h | ⟨_, _, h1⟩)
        · exact absurd h hsne
        · exact absurd h hden
        · exact absurd h hsee
        · omega
    · have hres : decompose_dependency s
          = [pyJoin "@" (pySplit (pyDrop s 3) "@").dropLast,
             (pySplit (pyDrop s 3) "@").getLastD ""] := by
        unfold decompose_dependency
        rw [if_pos hgit]
        simp only [h2, if_false]
      rw [hres]
      simp only [List.headD_cons]
      rcases hsplit : pySplit (pyDrop s 3) "@" with _ | ⟨a, t⟩
      · exact absurd hsplit (pySplit_ne_nil _ _)
      · have ha : a ≠ "" := by
          have hh := hhead
          rw [hsplit] at hh
          simpa using hh
        cases t with
        | nil =>
          constructor
          · intro _
            exact Or.inr (Or.inr (Or.inr ⟨hgit.1, hgit.2, rfl⟩))
          · intro _
            rfl
        | cons b t2 =>
          cases t2 with
          | nil =>
            exfalso
            apply h2
            rw [hsplit]
            rfl
          | cons d t3 =>
            have hjoin : pyJoin "@" ((a :: b :: d :: t3).dropLast) ≠ "" := by
              have hdl : (a :: b :: d :: t3).dropLast = a :: (b :: d :: t3).dropLast := rfl
              rw [hdl]
              exact pyJoin_cons_ne_empty _ _ _ ha
            constructor
            · intro h
              exact absurd h hjoin
            · rintro (h | h | h | ⟨_, _, h1⟩)
              · exact absurd h hsne
              · exact absurd h hden
              · exact absurd h hsee
              · simp at h1
  · by_cases he : pyTake s 3 = "-e "
    · -- plain editable branch
      have hres : decompose_dependency s = [pyDrop s 3, ""] := by
        unfold decompose_dependency
        rw [if_neg hgit, if_pos he]
      rw [hres]
      simp only [List.headD_cons]
      have h3 : s.data.take 3 = ['-', 'e', ' '] := pyTake_data_eq he
      have hsdata : s.data = ['-', 'e', ' '] ++ s.data.drop 3 := by
        conv_lhs => rw [← List.take_append_drop 3 s.data]
        rw [h3]
      have hsne : s ≠ "" := by
        intro h
        have := (string_eq_empty_iff_data s).mp h
        rw [this] at hsdata
        exact absurd hsdata (by simp)
      have hden : pyTake s 2 ≠ "==" := by
        intro h
        have h2 : s.data.take 2 = ['=', '='] := pyTake_data_eq h
        rw [hsdata] at h2
        simp at h2
      have hng : ¬ pyTake (pyDrop s 3) 4 = "git+" := fun h => hgit ⟨he, h⟩
      constructor
      · intro h
        have hdrop : s.data.drop 3 = [] := by
          have h2 := (string_eq_empty_iff_data _).mp h
          rwa [pyDrop_data] at h2
        have hs3 : s.data = ['-', 'e', ' '] := by
          rw [hsdata, hdrop]
          simp
        refine Or.inr (Or.inr (Or.inl ?_))
        apply String.toList_inj.mp
        exact hs3
      · rintro (h | h | h | ⟨_, hg, _⟩)
        · exact absurd h hsne
        · exact absurd h hden
        · rw [h]
          rfl
        · exact absurd hg hng
    · by_cases hin : 1 < (pySplit s "==").length
      · -- `==` branch
        have hres : decompose_dependency s = pySplit s "==" := by
          unfold decompose_dependency
          rw [if_neg hgit, if_neg he, if_pos hin]
        rw [hres]
        have hsne : s ≠ "" := by
          intro h
          rw [h] at hin
          exact absurd hin (by decide)
        rw [pySplit_head_empty]
        constructor
        · rintro (h | h)
          · exact absurd h hsne
          · refine Or.inr (Or.inl ?_)
            have h2 := (isPrefixOf_iff_take _ _).mp h
            exact List.asString_eq.mpr h2
        · rintro (h | h | h | ⟨h3e, _, _⟩)
          · exact absurd h hsne
          · right
            exact (isPrefixOf_iff_take _ _).mpr (List.asString_eq.mp h)
          · exfalso
            apply he
            rw [h]
            rfl
          · exact absurd h3e he
      · -- fallback branch
        have hres : decompose_dependency s = [s, ""] := by
          unfold decompose_dependency
          rw [if_neg hgit, if_neg he, if_neg hin]
        rw [hres]
        simp only [List.headD_cons]
        constructor
        · intro h
          exact Or.inl h
        · rintro (h | h | h | ⟨h3e, _, _⟩)
          · exact h
          · exfalso
            apply hin
            have hpre : ("==" : String).data.isPrefixOf s.data = true :=
              (isPrefixOf_iff_take _ _).mpr (List.asString_eq.mp h)
            have hsne : s ≠ "" := by
              intro hemp
              rw [hemp] at h
              exact absurd h (by decide)
            exact pySplit_length_ge_two s "==" hpre hsne
          · exfalso
            apply he
            rw [h]
            rfl
          · exact absurd h3e he

/-! ## Environment Prober (`analyze_virtualenv`, src/busybody.py lines 53-105)

`subprocess.run(cmd, capture_output=True)` is modelled as a function from
the command line to an outcome: either a completed process (whose streams
are modelled as already-decoded strings) or a raised exception carrying the
message `repr(e)` recorded by the handler.  The result dictionary becomes a
record with one optional success field and one optional error field per
probe step; a field absent from the dictionary is `none`. -/

/-- A completed `subprocess.run` call. -/
structure ProcResult where
  returncode : Int
  stdout : String
  stderr : String
deriving DecidableEq

/-- What one `subprocess.run` invocation does. -/
inductive ProcOutcome : Type where
  | completed (p : ProcResult)
  | raised (e : String)
deriving DecidableEq

/-- The process table / launcher: behaviour of each command line. -/
abbrev Run := List String → ProcOutcome

/-- One error entry: `{"exit_code": ..., "error": ...}`; `exit_code` is
absent (`none`) when the process failed to launch. -/
structure ProbeErr where
  exit_code : Option Int
  error : String
deriving DecidableEq

/-- The JSON-serializable result of `analyze_virtualenv`: per step, at most
one of the success field and the error field is present. -/
structure ProbeResult where
  python_version : Option String := none
  python_version_error : Option ProbeErr := none
  pip_version : Option String := none
  pip_version_error : Option ProbeErr := none
  pip_freeze : Option (List String) := none
  pip_freeze_error : Option ProbeErr := none
deriving DecidableEq

/-- `analyze_virtualenv`: three sequential, independently-guarded probe
steps.  Each `try` block becomes a match on the outcome of its command:
a raised exception is recorded as a generic error for that step only. -/
def analyze_virtualenv (run : Run) (virtualenv_dir : String) : ProbeResult :=
  let python_binary := ospath_join (ospath_join virtualenv_dir "bin") "python"
  let pip_binary := ospath_join (ospath_join virtualenv_dir "bin") "pip"
  let result0 : ProbeResult := {}
  let result1 :=
    match run [python_binary, "--version"] with
    | .completed p =>
      if p.returncode ≠ 0 then
        { result0 with python_version_error := some ⟨some p.returncode, pyStrip p.stderr⟩ }
      else
        { result0 with python_version := some (pyStrip p.stdout) }
    | .raised e => { result0 with python_version_error := some ⟨none, e⟩ }
  let result2 :=
    match run [pip_binary, "--version"] with
    | .completed p =>
      if p.returncode ≠ 0 then
        { result1 with pip_version_error := some ⟨some p.returncode, pyStrip p.stderr⟩ }
      else
        { result1 with
            pip_version := some (pyStrip ((pySplit p.stdout " from ").headD "")) }
    | .raised e => { result1 with pip_version_error := some ⟨none, e⟩ }
  let result3 :=
    match run [pip_binary, "freeze"] with
    | .completed p =>
      if p.returncode ≠ 0 then
        { result2 with pip_freeze_error := some ⟨some p.returncode, pyStrip p.stderr⟩ }
      else
        { result2 with pip_freeze := some (pySplit (pyStrip p.stdout) "\n") }
    | .raised e => { result2 with pip_freeze_error := some ⟨none, e⟩ }
  result3

/-- What the `python --version` step records, as a function of the outcome
of its command alone. -/
def python_version_step : ProcOutcome → Option String × Option ProbeErr
  | .completed p =>
    if p.returncode ≠ 0 then (none, some ⟨some p.returncode, pyStrip p.stderr⟩)
    else (some (pyStrip p.stdout), none)
  | .raised e => (none, some ⟨none, e⟩)

/-- What the `pip --version` step records (keeping only the part of stdout
before `" from "`), as a function of the outcome of its command alone. -/
def pip_version_step : ProcOutcome → Option String × Option ProbeErr
  | .completed p =>
    if p.returncode ≠ 0 then (none, some ⟨some p.returncode, pyStrip p.stderr⟩)
    else (some (pyStrip ((pySplit p.stdout " from ").headD "")), none)
  | .raised e => (none, some ⟨none, e⟩)

/-- What the `pip freeze` step records, as a function of the outcome of its
command alone. -/
def pip_freeze_step : ProcOutcome → Option (List String) × Option ProbeErr
  | .completed p =>
    if p.returncode ≠ 0 then (none, some ⟨some p.returncode, pyStrip p.stderr⟩)
    else (some (pySplit (pyStrip p.stdout) "\n"), none)
  | .raised e => (none, some ⟨none, e⟩)

/-- The probe record is assembled field-by-field from the three outcomes,
each step touching only its own pair of fields. -/
theorem analyze_virtualenv_eq (run : Run) (d : String) :
    analyze_virtualenv run d =
      { python_version :=
          (python_version_step (run [ospath_join (ospath_join d "bin") "python", "--version"])).1,
        python_version_error :=
          (python_version_step (run [ospath_join (ospath_join d "bin") "python", "--version"])).2,
        pip_version :=
          (pip_version_step (run [ospath_join (ospath_join d "bin") "pip", "--version"])).1,
        pip_version_error :=
          (pip_version_step (run [ospath_join (ospath_join d "bin") "pip", "--version"])).2,
        pip_freeze :=
          (pip_freeze_step (run [ospath_join (ospath_join d "bin") "pip", "freeze"])).1,
        pip_freeze_error :=
          (pip_freeze_step (run [ospath_join (ospath_join d "bin") "pip", "freeze"])).2 } := by
  simp only [analyze_virtualenv]
  rcases h1 : run [ospath_join (ospath_join d "bin") "python", "--version"] with p1 | e1 <;>
    rcases h2 : run [ospath_join (ospath_join d "bin") "pip", "--version"] with p2 | e2 <;>
      rcases h3 : run [ospath_join (ospath_join d "bin") "pip", "freeze"] with p3 | e3 <;>
        simp only [python_version_step, pip_version_step, pip_freeze_step] <;>
          split_ifs <;> rfl

theorem python_version_step_exclusive (o : ProcOutcome) :
    (python_version_step o).1.isSome = !(python_version_step o).2.isSome := by
  rcases o with p | e
  · simp only [python_version_step]
    split_ifs <;> rfl
  · rfl

theorem pip_version_step_exclusive (o : ProcOutcome) :
    (pip_version_step o).1.isSome = !(pip_version_step o).2.isSome := by
  rcases o with p | e
  · simp only [pip_version_step]
    split_ifs <;> rfl
  · rfl

theorem pip_freeze_step_exclusive (o : ProcOutcome) :
    (pip_freeze_step o).1.isSome = !(pip_freeze_step o).2.isSome := by
  rcases o with p | e
  · simp only [pip_freeze_step]
    split_ifs <;> rfl
  · rfl

/-- C3: the three probe steps of `analyze_virtualenv` are independently
guarded.  The probe record equals the per-step assembly, where each step's
pair of fields is a function of that step's command outcome alone (so a
failure in one step cannot affect the others, and the other steps are
still attempted); per step exactly one of the success/error fields is
present; a non-zero exit records the exit code and trimmed stderr while a
failure to launch records a generic message; and the probe is a total
function, so no exception propagates out of it. -/
theorem analyze_virtualenv_isolated_steps (run : Run) (d : String) :
    (analyze_virtualenv run d =
      { python_version :=
          (python_version_step (run [ospath_join (ospath_join d "bin") "python", "--version"])).1,
        python_version_error :=
          (python_version_step (run [ospath_join (ospath_join d "bin") "python", "--version"])).2,
        pip_version :=
          (pip_version_step (run [ospath_join (ospath_join d "bin") "pip", "--version"])).1,
        pip_version_error :=
          (pip_version_step (run [ospath_join (ospath_join d "bin") "pip", "--version"])).2,
        pip_freeze :=
          (pip_freeze_step (run [ospath_join (ospath_join d "bin") "pip", "freeze"])).1,
        pip_freeze_error :=
          (pip_freeze_step (run [ospath_join (ospath_join d "bin") "pip", "freeze"])).2 })
    ∧ ((analyze_virtualenv run d).python_version.isSome
        = !(analyze_virtualenv run d).python_version_error.isSome)
    ∧ ((analyze_virtualenv run d).pip_version.isSome
        = !(analyze_virtualenv run d).pip_version_error.isSome)
    ∧ ((analyze_virtualenv run d).pip_freeze.isSome
        = !(analyze_virtualenv run d).pip_freeze_error.isSome)
    ∧ (∀ p : ProcResult,
        run [ospath_join (ospath_join d "bin") "pip", "--version"] = .completed p →
        p.returncode ≠ 0 →
        (analyze_virtualenv run d).pip_version = none
        ∧ (analyze_virtualenv run d).pip_version_error
            = some ⟨some p.returncode, pyStrip p.stderr⟩)
    ∧ (∀ e : String,
        run [ospath_join (ospath_join d "bin") "pip", "--version"] = .raised e →
        (analyze_virtualenv run d).pip_version = none
        ∧ (analyze_virtualenv run d).pip_version_error = some ⟨none, e⟩) := by
  refine ⟨analyze_virtualenv_eq run d, ?_, ?_, ?_, ?_, ?_⟩
  · rw [analyze_virtualenv_eq run d]
    exact python_version_step_exclusive _
  · rw [analyze_virtualenv_eq run d]
    exact pip_version_step_exclusive _
  · rw [analyze_virtualenv_eq run d]
    exact pip_freeze_step_exclusive _
  · intro p hp hrc
    rw [analyze_virtualenv_eq run d]
    simp only [hp, pip_version_step, if_pos hrc]
    exact ⟨trivial, trivial⟩
  · intro e he
    rw [analyze_virtualenv_eq run d]
    simp only [he, pip_version_step]
    exact ⟨trivial, trivial⟩

/-- A process table in which `pip --version` exits non-zero while the
other two probes of environment "env" succeed. -/
def run_pip_fails : Run := fun cmd =>
  if cmd = ["env/bin/pip", "--version"] then .completed ⟨1, "", "boom\n"⟩
  else if cmd = ["env/bin/python", "--version"] then
    .completed ⟨0, "Python 3.10.0\n", ""⟩
  else .completed ⟨0, "requests==2.31.0\n", ""⟩

theorem analyze_virtualenv_isolated_steps_witness :
    (analyze_virtualenv run_pip_fails "env").pip_version = none
    ∧ (analyze_virtualenv run_pip_fails "env").pip_version_error
        = some ⟨some 1, "boom"⟩
    ∧ (analyze_virtualenv run_pip_fails "env").python_version
        = some "Python 3.10.0"
    ∧ (analyze_virtualenv run_pip_fails "env").pip_freeze
        = some ["requests==2.31.0"] := by
  have h := (analyze_virtualenv_isolated_steps run_pip_fails "env").2.2.2.2.1
    ⟨1, "", "boom\n"⟩ (by decide) (by decide)
  refine ⟨h.1, ?_, by decide, by decide⟩
  rw [h.2]
  decide

/-! ## Tree Scanner (`get_virtualenvs`, src/busybody.py lines 39-50)

The filesystem tree walked by `os.walk` is a finite rose tree of named
directories.  Each node carries the boolean that `is_virtualenv` returns
for it in the filesystem snapshot, so the scanner is modelled for an
arbitrary classifier verdict per directory.  (`Dir`/`Children` are a
mutual pair rather than a nested inductive so that the structural `size`
used to bound the walk is an executable, kernel-reducible function.)

The loop body

    for subdirectory in subdirectories:
        subdirectory_path = os.path.join(dirpath, subdirectory)
        if is_virtualenv(subdirectory_path):
            virtualenvs.append(subdirectory_path)
            subdirectories.remove(subdirectory)

iterates by index over the list it mutates: after `remove` shifts the
list, the iteration index still advances, so the element just after a
removed one is never examined (but stays in the list, hence is descended
into).  The model reproduces this index-based semantics exactly. -/

mutual
inductive Dir : Type where
  | mk (venv : Bool) (children : Children)
inductive Children : Type where
  | nil
  | cons (name : String) (d : Dir) (rest : Children)
end

mutual
def Dir.size : Dir → Nat
  | .mk _ cs => 1 + cs.size
def Children.size : Children → Nat
  | .nil => 0
  | .cons _ d rest => 1 + d.size + rest.size
end

def Children.toList : Children → List (String × Dir)
  | .nil => []
  | .cons n d rest => (n, d) :: rest.toList

def Children.ofList : List (String × Dir) → Children
  | [] => .nil
  | (n, d) :: rest => .cons n d (Children.ofList rest)

/-- Build a directory from its classifier verdict and named children. -/
def dir (venv : Bool) (cs : List (String × Dir)) : Dir := .mk venv (Children.ofList cs)

def Dir.venv : Dir → Bool
  | .mk b _ => b

def Dir.children : Dir → List (String × Dir)
  | .mk _ cs => cs.toList

/-- Python `subdirectories.remove(name)`: delete the first entry with the
given name. -/
def removeName (n : String) : List (String × Dir) → List (String × Dir)
  | [] => []
  | c :: cs => if c.1 = n then cs else c :: removeName n cs

/-- The `for subdirectory in subdirectories` loop of `get_virtualenvs`,
with Python's index-based iteration over the mutating list: `i` is the
iteration index; a matched subdirectory is recorded (its path accumulated
with `join`) and removed, and because removal shifts the list the element
that slides into position `i` is never examined.  The fuel `k` bounds the
number of iterations and is initialised to the list length, which the
loop never needs to exceed (each step increases `i` by one and never
lengthens the list).  Returns the recorded paths and the final
`subdirectories` list. -/
def venvLoopGo {α : Type} (join : α → String → α) (dirpath : α) :
    Nat → List (String × Dir) → Nat → List α × List (String × Dir)
  | 0, subs, _ => ([], subs)
  | k+1, subs, i =>
    if h : i < subs.length then
      let c := subs[i]
      if c.2.venv then
        let r := venvLoopGo join dirpath k (removeName c.1 subs) (i+1)
        ((join dirpath c.1) :: r.1, r.2)
      else venvLoopGo join dirpath k subs (i+1)
    else ([], subs)

/-- `os.walk(root, topdown=True)` composed with the body of
`get_virtualenvs`: process the current directory's subdirectory list,
then walk each remaining subdirectory in order.  The fuel `k` bounds the
recursion depth; `Dir.size` always suffices since every child is strictly
smaller. -/
def walkGo {α : Type} (join : α → String → α) : Nat → α → Dir → List α
  | 0, _, _ => []
  | k+1, dirpath, d =>
    let r := venvLoopGo join dirpath d.children.length d.children 0
    r.1 ++ (r.2.map fun c => walkGo join k (join dirpath c.1) c.2).flatten

/-- `get_virtualenvs(root_dir)` over the tree `d` rooted at `root_dir`,
accumulating paths with `os.path.join` exactly as the source does. -/
def get_virtualenvs (root_dir : String) (d : Dir) : List String :=
  walkGo ospath_join d.size root_dir d

/-- The same traversal recording each found environment as its list of
names below the root (for stating structural properties independently of
the string join). -/
def walkNames (d : Dir) : List (List String) :=
  walkGo (fun p n => p ++ [n]) d.size [] d

/-- All classifier-accepted directories strictly below `d`, as name paths,
in depth-first order (the reference set the scanner is specified
against). -/
def venvPathsGo : Nat → List String → Dir → List (List String)
  | 0, _, _ => []
  | k+1, p, d =>
    (d.children.map fun c =>
      (if c.2.venv then [p ++ [c.1]] else []) ++ venvPathsGo k (p ++ [c.1]) c.2).flatten

def venvPaths (d : Dir) : List (List String) := venvPathsGo d.size [] d

/-- The names actually examined (passed to the classifier) by one run of
the subdirectory loop, with the same skip-on-removal semantics. -/
def visitLoopGo : Nat → List (String × Dir) → Nat → List String
  | 0, _, _ => []
  | k+1, subs, i =>
    if h : i < subs.length then
      let c := subs[i]
      if c.2.venv then c.1 :: visitLoopGo k (removeName c.1 subs) (i+1)
      else c.1 :: visitLoopGo k subs (i+1)
    else []

/-- All subdirectory paths (as name paths) examined by the classifier over
the whole walk. -/
def visitedNamesGo : Nat → List String → Dir → List (List String)
  | 0, _, _ => []
  | k+1, p, d =>
    (visitLoopGo d.children.length d.children 0).map (fun n => p ++ [n])
      ++ ((venvLoopGo (fun q n => q ++ [n]) p d.children.length d.children 0).2.map
            fun c => visitedNamesGo k (p ++ [c.1]) c.2).flatten

def visitedNames (d : Dir) : List (List String) := visitedNamesGo d.size [] d

/-- A leaf directory the classifier accepts. -/
def venvLeaf : Dir := dir true []

/-- A root with classifier-accepted environments at the two adjacent
sibling entries `A` and `B`. -/
def two_sibling_envs : Dir := dir false [("A", venvLeaf), ("B", venvLeaf)]

/-- C2 (code bug): on a root whose subdirectory list has two adjacent
classifier-accepted siblings `A` and `B`, both are maximal (`venvPaths`
lists exactly them and neither is below the other), but the scanner
returns only `root/A`: removing `A` from the list being iterated shifts
`B` into the current index, so `B` is never examined.  The returned set
is therefore not the set of maximal classifier-accepted directories. -/
theorem get_virtualenvs_misses_adjacent_sibling :
    venvPaths two_sibling_envs = [["A"], ["B"]]
    ∧ (∀ q ∈ venvPaths two_sibling_envs, q ≠ ["B"] → q.isPrefixOf ["B"] = false)
    ∧ walkNames two_sibling_envs = [["A"]]
    ∧ get_virtualenvs "root" two_sibling_envs = ["root/A"]
    ∧ ["B"] ∉ walkNames two_sibling_envs
    ∧ "root/B" ∉ get_virtualenvs "root" two_sibling_envs := by decide

/-! ### Addressing directories by path, and tree well-formedness -/

/-- The directory at a path of names below `d`, if any (first entry wins
for each name, as in `List.lookup`; a real filesystem has unique sibling
names). -/
def nodeAt : Dir → List String → Option Dir
  | d, [] => some d
  | d, n :: rest =>
    match List.lookup n d.children with
    | some c => nodeAt c rest
    | none => none

/-- Whether the non-empty name path `p` below `d` addresses a directory
the classifier accepts. -/
def venvAt (d : Dir) (p : List String) : Bool :=
  !p.isEmpty && ((nodeAt d p).map Dir.venv).getD false

/-- Well-formedness of a tree as a filesystem snapshot: sibling names are
distinct at every reachable node. -/
def wfAt (d : Dir) : Prop :=
  ∀ p c, nodeAt d p = some c → ((c.children.map Prod.fst)).Nodup

theorem lookup_of_mem_nodup {l : List (String × Dir)} {n : String} {x : Dir}
    (hnd : (l.map Prod.fst).Nodup) (hm : (n, x) ∈ l) :
    List.lookup n l = some x := by
  induction l with
  | nil => simp at hm
  | cons c cs ih =>
    rcases List.mem_cons.mp hm with h | h
    · rw [← h]
      simp [List.lookup]
    · have hne : n ≠ c.1 := by
        intro he
        have h1 : c.1 ∈ cs.map Prod.fst := by
          rw [← he]
          exact List.mem_map.mpr ⟨(n, x), h, rfl⟩
        simp only [List.map_cons, List.nodup_cons] at hnd
        exact hnd.1 h1
      have hnd2 : (cs.map Prod.fst).Nodup := by
        simp only [List.map_cons, List.nodup_cons] at hnd
        exact hnd.2
      simp only [List.lookup, beq_eq_false_iff_ne.mpr hne]
      exact ih hnd2 h

theorem mem_of_lookup {l : List (String × Dir)} {n : String} {x : Dir}
    (h : List.lookup n l = some x) : (n, x) ∈ l := by
  induction l with
  | nil => simp [List.lookup] at h
  | cons c cs ih =>
    by_cases he : n = c.1
    · subst he
      simp only [List.lookup, beq_self_eq_true] at h
      cases h
      exact List.mem_cons.mpr (Or.inl (by rw [← Prod.eta c]))
    · simp only [List.lookup, beq_eq_false_iff_ne.mpr he] at h
      exact List.mem_cons.mpr (Or.inr (ih h))

theorem nodeAt_cons {d c : Dir} {n : String} (q : List String)
    (h : List.lookup n d.children = some c) :
    nodeAt d (n :: q) = nodeAt c q := by
  simp [nodeAt, h]

theorem wfAt_child {d c : Dir} {n : String} (hwf : wfAt d)
    (h : List.lookup n d.children = some c) : wfAt c := by
  intro p x hx
  exact hwf (n :: p) x (by rw [nodeAt_cons p h]; exact hx)

theorem venvAt_cons {d c : Dir} {n : String} {q : List String}
    (h : List.lookup n d.children = some c) (hq : q ≠ []) :
    venvAt d (n :: q) = venvAt c q := by
  simp only [venvAt, nodeAt_cons q h]
  cases q with
  | nil => exact absurd rfl hq
  | cons m rest => rfl

theorem removeName_mem_of_nodup (n : String) (l : List (String × Dir))
    (hnd : (l.map Prod.fst).Nodup) :
    ∀ c ∈ removeName n l, c ∈ l ∧ c.1 ≠ n := by
  induction l with
  | nil => intro c hc; simp [removeName] at hc
  | cons x xs ih =>
    simp only [List.map_cons, List.nodup_cons] at hnd
    intro c hc
    by_cases hx : x.1 = n
    · rw [removeName, if_pos hx] at hc
      refine ⟨List.mem_cons.mpr (Or.inr hc), ?_⟩
      intro he
      apply hnd.1
      rw [hx, ← he]
      exact List.mem_map.mpr ⟨c, hc, rfl⟩
    · rw [removeName, if_neg hx] at hc
      rcases List.mem_cons.mp hc with h | h
      · exact ⟨List.mem_cons.mpr (Or.inl h), by rw [h]; exact hx⟩
      · obtain ⟨h1, h2⟩ := ih hnd.2 c h
        exact ⟨List.mem_cons.mpr (Or.inr h1), h2⟩

/-- One unfolding of the loop when the index is still in range. -/
theorem venvLoopGo_succ {α : Type} (join : α → String → α) (p : α)
    (k : Nat) (subs : List (String × Dir)) (i : Nat) (h : i < subs.length) :
    venvLoopGo join p (k+1) subs i
      = if (subs[i]).2.venv then
          ((join p (subs[i]).1)
            :: (venvLoopGo join p k (removeName (subs[i]).1 subs) (i+1)).1,
           (venvLoopGo join p k (removeName (subs[i]).1 subs) (i+1)).2)
        else venvLoopGo join p k subs (i+1) := by
  rw [venvLoopGo, dif_pos h]

/-- One unfolding of the loop when the index has run off the end. -/
theorem venvLoopGo_stop {α : Type} (join : α → String → α) (p : α)
    (k : Nat) (subs : List (String × Dir)) (i : Nat) (h : ¬ i < subs.length) :
    venvLoopGo join p (k+1) subs i = ([], subs) := by
  rw [venvLoopGo, dif_neg h]

/-- If no subdirectory in the list is accepted, the loop records nothing
and leaves the list unchanged. -/
theorem venvLoopGo_no_venv {α : Type} (join : α → String → α) (p : α)
    (k : Nat) :
    ∀ (subs : List (String × Dir)) (i : Nat),
      (∀ c ∈ subs, c.2.venv = false) →
      venvLoopGo join p k subs i = ([], subs) := by
  induction k with
  | zero => intro subs i _; rfl
  | succ k ih =>
    intro subs i hall
    by_cases h : i < subs.length
    · have hv : (subs[i]).2.venv = false := hall _ (subs.getElem_mem h)
      rw [venvLoopGo_succ join p k subs i h, if_neg (ne_true_of_eq_false hv)]
      exact ih subs (i + 1) hall
    · exact venvLoopGo_stop join p k subs i h

/-- If the list contains exactly one accepted subdirectory (still ahead of
the iteration index), the loop records exactly its path and removes
exactly that entry. -/
theorem venvLoopGo_single_venv {α : Type} (join : α → String → α) (p : α) :
    ∀ (k i : Nat) (subs : List (String × Dir)) (nm : String) (cm : Dir),
      (subs.map Prod.fst).Nodup →
      (nm, cm) ∈ subs.drop i →
      cm.venv = true →
      (∀ c ∈ subs, c.2.venv = true → c = (nm, cm)) →
      subs.length - i ≤ k →
      venvLoopGo join p k subs i = ([join p nm], removeName nm subs) := by
  intro k
  induction k with
  | zero =>
    intro i subs nm cm _ hmem _ _ hk
    exfalso
    have : subs.drop i = [] := List.drop_eq_nil_of_le (by omega)
    rw [this] at hmem
    simp at hmem
  | succ k ih =>
    intro i subs nm cm hnd hmem hcm huniq hk
    have hi : i < subs.length := by
      by_contra h
      push_neg at h
      rw [List.drop_eq_nil_of_le h] at hmem
      simp at hmem
    have hdrop : subs.drop i = subs[i] :: subs.drop (i + 1) :=
      List.drop_eq_getElem_cons hi
    by_cases hv : (subs[i]).2.venv = true
    · have heq : subs[i] = (nm, cm) := huniq _ (subs.getElem_mem hi) hv
      rw [venvLoopGo_succ join p k subs i hi, if_pos hv]
      have hrec : venvLoopGo join p k (removeName (subs[i]).1 subs) (i + 1)
          = ([], removeName (subs[i]).1 subs) := by
        apply venvLoopGo_no_venv
        intro c hc
        obtain ⟨hc1, hc2⟩ := removeName_mem_of_nodup _ _ hnd c hc
        by_contra hcv
        rw [Bool.not_eq_false] at hcv
        have := huniq c hc1 hcv
        apply hc2
        rw [this, heq]
      rw [hrec, heq]
    · have hne : subs[i] ≠ (nm, cm) := by
        intro h
        apply hv
        rw [h]
        exact hcm
      rw [venvLoopGo_succ join p k subs i hi, if_neg hv]
      have hmem2 : (nm, cm) ∈ subs.drop (i + 1) := by
        rw [hdrop] at hmem
        rcases List.mem_cons.mp hmem with h | h
        · exact absurd h.symm hne
        · exact h
      exact ih (i + 1) subs nm cm hnd hmem2 hcm huniq (by omega)

/-- One unfolding of the walk. -/
theorem walkGo_succ {α : Type} (join : α → String → α) (k : Nat) (p : α)
    (d : Dir) :
    walkGo join (k+1) p d
      = (venvLoopGo join p d.children.length d.children 0).1
        ++ ((venvLoopGo join p d.children.length d.children 0).2.map
              fun c => walkGo join k (join p c.1) c.2).flatten := by
  rw [walkGo]

/-- A subtree with no accepted directory contributes nothing to the walk. -/
theorem walkGo_no_venv {α : Type} (join : α → String → α) :
    ∀ (k : Nat) (p : α) (d : Dir), wfAt d → (∀ q, venvAt d q = false) →
      walkGo join k p d = [] := by
  intro k
  induction k with
  | zero => intro p d _ _; rfl
  | succ k ih =>
    intro p d hwf hfree
    have hnd : (d.children.map Prod.fst).Nodup := hwf [] d rfl
    have hch : ∀ c ∈ d.children, c.2.venv = false := by
      intro c hc
      have hl : List.lookup c.1 d.children = some c.2 :=
        lookup_of_mem_nodup hnd (by simpa using hc)
      have hvc : venvAt d [c.1] = c.2.venv := by
        simp [venvAt, nodeAt, hl]
      have hq := hfree [c.1]
      rw [hvc] at hq
      exact hq
    rw [walkGo_succ, venvLoopGo_no_venv join p _ d.children 0 hch,
      List.nil_append]
    have hmap : ∀ c ∈ d.children, walkGo join k (join p c.1) c.2 = [] := by
      intro c hc
      have hl : List.lookup c.1 d.children = some c.2 :=
        lookup_of_mem_nodup hnd (by simpa using hc)
      apply ih (join p c.1) c.2 (wfAt_child hwf hl)
      intro q
      cases q with
      | nil => rfl
      | cons m rest =>
        rw [← venvAt_cons hl (by simp)]
        exact hfree (c.1 :: m :: rest)
    rw [List.map_congr_left hmap]
    simp

/-- Every path the walk examines lies strictly below the directory the
walk started from. -/
theorem visitedNamesGo_extends :
    ∀ (k : Nat) (p : List String) (d : Dir) (q : List String),
      q ∈ visitedNamesGo k p d → ∃ s, s ≠ [] ∧ q = p ++ s := by
  intro k
  induction k with
  | zero =>
    intro p d q h
    simp [visitedNamesGo] at h
  | succ k ih =>
    intro p d q h
    rw [visitedNamesGo] at h
    rcases List.mem_append.mp h with h | h
    · obtain ⟨n, _, hn⟩ := List.mem_map.mp h
      exact ⟨[n], by simp, hn.symm⟩
    · obtain ⟨l, hl, hq⟩ := List.mem_flatten.mp h
      obtain ⟨c, _, rfl⟩ := List.mem_map.mp hl
      obtain ⟨s, hs, hqe⟩ := ih (p ++ [c.1]) c.2 q hq
      refine ⟨c.1 :: s, by simp, ?_⟩
      rw [hqe, List.append_assoc]
      rfl

/-- The loop is parametric in the path accumulator: accumulating through
`f` of the seed accumulates the `f`-image of each recorded path, and the
final subdirectory list does not depend on the accumulator at all. -/
theorem venvLoopGo_map {α β : Type} (j1 : α → String → α) (j2 : β → String → β)
    (f : α → β) (hf : ∀ x n, f (j1 x n) = j2 (f x) n) :
    ∀ (k : Nat) (subs : List (String × Dir)) (i : Nat) (p : α),
      venvLoopGo j2 (f p) k subs i
        = ((venvLoopGo j1 p k subs i).1.map f, (venvLoopGo j1 p k subs i).2) := by
  intro k
  induction k with
  | zero => intro subs i p; rfl
  | succ k ih =>
    intro subs i p
    by_cases h : i < subs.length
    · by_cases hv : (subs[i]).2.venv = true
      · rw [venvLoopGo_succ j2 (f p) k subs i h, if_pos hv,
          venvLoopGo_succ j1 p k subs i h, if_pos hv, ih, ← hf]
        rfl
      · rw [venvLoopGo_succ j2 (f p) k subs i h, if_neg hv,
          venvLoopGo_succ j1 p k subs i h, if_neg hv]
        exact ih subs (i+1) p
    · rw [venvLoopGo_stop j2 (f p) k subs i h, venvLoopGo_stop j1 p k subs i h]
      rfl

/-- The walk is parametric in the path accumulator. -/
theorem walkGo_map {α β : Type} (j1 : α → String → α) (j2 : β → String → β)
    (f : α → β) (hf : ∀ x n, f (j1 x n) = j2 (f x) n) :
    ∀ (k : Nat) (d : Dir) (p : α),
      walkGo j2 k (f p) d = (walkGo j1 k p d).map f := by
  intro k
  induction k with
  | zero => intro d p; rfl
  | succ k ih =>
    intro d p
    rw [walkGo_succ, walkGo_succ, venvLoopGo_map j1 j2 f hf]
    rw [List.map_append]
    congr 1
    rw [List.map_flatten, List.map_map]
    apply congrArg List.flatten
    apply List.map_congr_left
    intro c _
    show walkGo j2 k (j2 (f p) c.1) c.2 = (walkGo j1 k (j1 p c.1) c.2).map f
    rw [← hf p c.1]
    exact ih c.2 (j1 p c.1)

/-- The string paths returned by `get_virtualenvs` are exactly the
`os.path.join`-folds of the name paths of the same traversal. -/
theorem get_virtualenvs_eq_walkNames (root : String) (d : Dir) :
    get_virtualenvs root d
      = (walkNames d).map (fun p => p.foldl ospath_join root) := by
  unfold get_virtualenvs walkNames
  have hf : ∀ (x : List String) (n : String),
      (x ++ [n]).foldl ospath_join root = ospath_join (x.foldl ospath_join root) n := by
    intro x n
    rw [List.foldl_append]
    rfl
  have h := walkGo_map (fun p n => p ++ [n]) ospath_join
    (fun p => p.foldl ospath_join root) hf d.size d []
  simpa using h

theorem nodeAt_cons_none {d : Dir} {n : String} (q : List String)
    (h : List.lookup n d.children = none) :
    nodeAt d (n :: q) = none := by
  simp [nodeAt, h]

/-- C5: if the classifier-accepted directories below the root are exactly
`root/a` and the nested `root/a/b`, the scanner returns only `root/a`:
once `a` matches, it is recorded and removed from the list `os.walk`
descends into, so nothing below it — in particular `root/a/b` — is ever
visited or classified, while the remaining (non-matching) subdirectories
are descended into normally and contribute nothing. -/
theorem scanner_prunes_nested (d : Dir) (root a b : String) (hwf : wfAt d)
    (hv : ∀ p : List String, p ≠ [] →
      (venvAt d p = true ↔ (p = [a] ∨ p = [a, b]))) :
    get_virtualenvs root d = [ospath_join root a]
    ∧ walkNames d = [[a]]
    ∧ [a, b] ∉ visitedNames d := by
  have ha1 : venvAt d [a] = true := (hv [a] (by simp)).mpr (Or.inl rfl)
  have hA : ∃ cA, List.lookup a d.children = some cA ∧ cA.venv = true := by
    cases hl : List.lookup a d.children with
    | none =>
      exfalso
      simp [venvAt, nodeAt, hl] at ha1
    | some c =>
      refine ⟨c, rfl, ?_⟩
      simpa [venvAt, nodeAt, hl] using ha1
  obtain ⟨cA, hlA, hvA⟩ := hA
  have hmemA : (a, cA) ∈ d.children := mem_of_lookup hlA
  have hnd : (d.children.map Prod.fst).Nodup := hwf [] d rfl
  have huniq : ∀ c ∈ d.children, c.2.venv = true → c = (a, cA) := by
    intro c hc hcv
    have hl : List.lookup c.1 d.children = some c.2 :=
      lookup_of_mem_nodup hnd (by simpa using hc)
    have hvc : venvAt d [c.1] = true := by simp [venvAt, nodeAt, hl, hcv]
    rcases (hv [c.1] (by simp)).mp hvc with h | h
    · have hca : c.1 = a := by simpa using h
      rw [hca, hlA] at hl
      have h2 : cA = c.2 := by injection hl
      exact Prod.ext_iff.mpr ⟨hca, h2.symm⟩
    · simp at h
  have hfree : ∀ c ∈ d.children, c.1 ≠ a → ∀ q, venvAt c.2 q = false := by
    intro c hc hne q
    cases q with
    | nil => rfl
    | cons m rest =>
      have hl : List.lookup c.1 d.children = some c.2 :=
        lookup_of_mem_nodup hnd (by simpa using hc)
      rw [← venvAt_cons hl (by simp)]
      by_contra hq
      rw [Bool.not_eq_false] at hq
      rcases (hv (c.1 :: m :: rest) (by simp)).mp hq with h | h
      · simp at h
      · injection h with h1 _
        exact hne h1
  have hloop : ∀ {α : Type} (join : α → String → α) (p : α),
      venvLoopGo join p d.children.length d.children 0
        = ([join p a], removeName a d.children) := by
    intro α join p
    exact venvLoopGo_single_venv join p d.children.length 0 d.children a cA hnd
      (by simpa using hmemA) hvA huniq (by omega)
  have hrem := removeName_mem_of_nodup a d.children hnd
  have hsz : ∃ k, d.size = k + 1 := by
    cases d with
    | mk v cs => exact ⟨cs.size, by simp [Dir.size, Nat.add_comm]⟩
  obtain ⟨k, hk⟩ := hsz
  have hwn : walkNames d = [[a]] := by
    unfold walkNames
    rw [hk, walkGo_succ, hloop]
    have hmap : ∀ c ∈ removeName a d.children,
        walkGo (fun p n => p ++ [n]) k (([] : List String) ++ [c.1]) c.2 = [] := by
      intro c hc
      obtain ⟨hc1, hc2⟩ := hrem c hc
      have hl : List.lookup c.1 d.children = some c.2 :=
        lookup_of_mem_nodup hnd (by simpa using hc1)
      exact walkGo_no_venv _ k _ c.2 (wfAt_child hwf hl) (hfree c hc1 hc2)
    rw [List.map_congr_left hmap]
    simp
  refine ⟨?_, hwn, ?_⟩
  · rw [get_virtualenvs_eq_walkNames, hwn]
    simp [List.foldl]
  · unfold visitedNames
    rw [hk, visitedNamesGo]
    intro hmem
    rcases List.mem_append.mp hmem with h | h
    · obtain ⟨n, _, hn⟩ := List.mem_map.mp h
      simp at hn
    · rw [hloop] at h
      obtain ⟨l, hl2, hq⟩ := List.mem_flatten.mp h
      obtain ⟨c, hcm, rfl⟩ := List.mem_map.mp hl2
      obtain ⟨s, hs, hqe⟩ := visitedNamesGo_extends k (([] : List String) ++ [c.1]) c.2 _ hq
      obtain ⟨_, hc2⟩ := hrem c hcm
      simp only [List.nil_append, List.cons_append] at hqe
      have h1 : a = c.1 := by
        have := hqe
        injection this with h1 _
      exact hc2 h1.symm

/-- The nested would-be environment `root/A/B`. -/
def nested_env_B : Dir := dir true []

/-- The environment `root/A`, containing the nested `B`. -/
def nested_env_A : Dir := dir true [("B", nested_env_B)]

/-- A root whose only classifier-accepted directories are `A` and the
nested `A/B`. -/
def nested_env_tree : Dir := dir false [("A", nested_env_A)]

theorem nested_env_tree_nodes :
    ∀ (p : List String) (d0 : Dir),
      (d0 = nested_env_tree ∨ d0 = nested_env_A ∨ d0 = nested_env_B) →
      ∀ c, nodeAt d0 p = some c →
        (c = nested_env_tree ∨ c = nested_env_A ∨ c = nested_env_B) := by
  intro p
  induction p with
  | nil =>
    intro d0 hd0 c hc
    have : d0 = c := by injection hc
    rw [← this]
    exact hd0
  | cons n rest ih =>
    intro d0 hd0 c hc
    rcases hd0 with rfl | rfl | rfl
    · cases hb : (n == "A") with
      | true =>
        have hl : List.lookup n nested_env_tree.children = some nested_env_A := by
          simp [nested_env_tree, dir, Dir.children, Children.ofList,
            Children.toList, List.lookup, hb]
        rw [nodeAt_cons rest hl] at hc
        exact ih nested_env_A (Or.inr (Or.inl rfl)) c hc
      | false =>
        have hl : List.lookup n nested_env_tree.children = none := by
          simp [nested_env_tree, dir, Dir.children, Children.ofList,
            Children.toList, List.lookup, hb]
        rw [nodeAt_cons_none rest hl] at hc
        exact absurd hc (by simp)
    · cases hb : (n == "B") with
      | true =>
        have hl : List.lookup n nested_env_A.children = some nested_env_B := by
          simp [nested_env_A, dir, Dir.children, Children.ofList,
            Children.toList, List.lookup, hb]
        rw [nodeAt_cons rest hl] at hc
        exact ih nested_env_B (Or.inr (Or.inr rfl)) c hc
      | false =>
        have hl : List.lookup n nested_env_A.children = none := by
          simp [nested_env_A, dir, Dir.children, Children.ofList,
            Children.toList, List.lookup, hb]
        rw [nodeAt_cons_none rest hl] at hc
        exact absurd hc (by simp)
    · have hl : List.lookup n nested_env_B.children = none := rfl
      rw [nodeAt_cons_none rest hl] at hc
      exact absurd hc (by simp)

theorem nested_env_tree_wf : wfAt nested_env_tree := by
  intro p c hc
  rcases nested_env_tree_nodes p nested_env_tree (Or.inl rfl) c hc with rfl | rfl | rfl
  · decide
  · decide
  · decide

theorem nested_env_tree_venvs :
    ∀ p : List String, p ≠ [] →
      (venvAt nested_env_tree p = true ↔ (p = ["A"] ∨ p = ["A", "B"])) := by
  intro p hp
  cases p with
  | nil => exact absurd rfl hp
  | cons n rest =>
    cases hb : (n == "A") with
    | false =>
      have hne : n ≠ "A" := by
        intro he
        rw [he] at hb
        simp at hb
      have hl : List.lookup n nested_env_tree.children = none := by
        simp [nested_env_tree, dir, Dir.children, Children.ofList,
          Children.toList, List.lookup, hb]
      have hnone : nodeAt nested_env_tree (n :: rest) = none :=
        nodeAt_cons_none rest hl
      simp only [venvAt, hnone, Option.map_none, Option.getD_none,
        Bool.and_false]
      constructor
      · intro h
        simp at h
      · rintro (h | h) <;> (injection h with h1 _; exact absurd h1 hne)
    | true =>
      have hna : n = "A" := eq_of_beq hb
      subst hna
      cases rest with
      | nil =>
        constructor
        · intro _
          exact Or.inl rfl
        · intro _
          decide
      | cons m rest2 =>
        cases hm : (m == "B") with
        | false =>
          have hmne : m ≠ "B" := by
            intro he
            rw [he] at hm
            simp at hm
          have hl : List.lookup m nested_env_A.children = none := by
            simp [nested_env_A, dir, Dir.children, Children.ofList,
              Children.toList, List.lookup, hm]
          have hlA : List.lookup "A" nested_env_tree.children = some nested_env_A := rfl
          have hnone : nodeAt nested_env_tree ("A" :: m :: rest2) = none := by
            rw [nodeAt_cons (m :: rest2) hlA]
            exact nodeAt_cons_none rest2 hl
          simp only [venvAt, hnone, Option.map_none, Option.getD_none,
            Bool.and_false]
          constructor
          · intro h
            simp at h
          · rintro (h | h)
            · simp at h
            · injection h with _ h2
              injection h2 with h3 _
              exact absurd h3 hmne
        | true =>
          have hmb : m = "B" := eq_of_beq hm
          subst hmb
          cases rest2 with
          | nil =>
            constructor
            · intro _
              exact Or.inr rfl
            · intro _
              decide
          | cons x rest3 =>
            have hlA : List.lookup "A" nested_env_tree.children = some nested_env_A := rfl
            have hlB : List.lookup "B" nested_env_A.children = some nested_env_B := rfl
            have hlx : List.lookup x nested_env_B.children = none := rfl
            have hnone : nodeAt nested_env_tree ("A" :: "B" :: x :: rest3) = none := by
              rw [nodeAt_cons ("B" :: x :: rest3) hlA,
                nodeAt_cons (x :: rest3) hlB]
              exact nodeAt_cons_none rest3 hlx
            simp only [venvAt, hnone, Option.map_none, Option.getD_none,
              Bool.and_false]
            constructor
            · intro h
              simp at h
            · rintro (h | h)
              · simp at h
              · injection h with _ h2
                injection h2 with _ h3
                exact absurd h3 (by simp)

theorem scanner_prunes_nested_witness :
    get_virtualenvs "root" nested_env_tree = ["root/A"]
    ∧ walkNames nested_env_tree = [["A"]]
    ∧ ["A", "B"] ∉ visitedNames nested_env_tree :=
  scanner_prunes_nested nested_env_tree "root" "A" "B"
    nested_env_tree_wf nested_env_tree_venvs

/-! ## Aggregator (`stats`, src/busybody.py lines 128-171)

Python dicts keyed by strings are modelled as functions (the source dict
`dependencies_by_package` has entries only for seen packages; the function
model returns an empty list — hence zero counts — for unseen keys, which
the claims never query).  The dict comprehension over environment paths is
kept as an association list in traversal order; the paths a real
filesystem walk yields are distinct, so no collapsing of duplicate dict
keys is modelled.  The loop

    for package, version in dependencies: ...

unpacks each decomposition into exactly two names and raises `ValueError`
on any other arity, so `stats` as a whole lives in `Except`. -/

/-- Python `collections.Counter` of a list, as its count function. -/
def pyCounter {γ : Type} [BEq γ] (l : List γ) : γ → Nat := fun x => l.count x

/-- Unpacking `package, version = pair`: raises unless the decomposition
has exactly two components. -/
def pyUnpack2 (l : List String) : Except String (String × String) :=
  match l with
  | [p, v] => .ok (p, v)
  | _ => .error "ValueError: unpacking"

/-- The unpacking loop over the whole dependency list: stops at the first
non-pair, otherwise yields every (package, version). -/
def unpackAll : List (List String) → Except String (List (String × String))
  | [] => .ok []
  | x :: xs => (pyUnpack2 x).bind fun q => (unpackAll xs).map fun qs => q :: qs

/-- The value returned by `stats`: the per-environment probe records and
the three frequency tables. -/
structure StatsResult where
  virtualenvs : List (String × ProbeResult)
  python_versions : Option String → Nat
  pip_versions : Option String → Nat
  dependency_counts : String → String → Nat

/-- `stats(root_dir)` over the tree `d` and process table `run`:
scan, probe every discovered environment, then reduce.
`analysis.get("python_version", None)` is the optional field itself, so
the version counters count `Option String` values with `none` as the
bucket for failed probes. -/
def stats (d : Dir) (root_dir : String) (run : Run) : Except String StatsResult :=
  let virtualenvs := get_virtualenvs root_dir d
  let analyses := virtualenvs.map fun v => (v, analyze_virtualenv run v)
  let python_versions := pyCounter (analyses.map fun a => a.2.python_version)
  let pip_versions := pyCounter (analyses.map fun a => a.2.pip_version)
  let dependencies :=
    (analyses.map fun a => (a.2.pip_freeze.getD []).map decompose_dependency).flatten
  (unpackAll dependencies).map fun pairs =>
    let dependencies_by_package : String → List String := fun package =>
      (pairs.filter fun pv => pv.1 == package).map fun pv => pv.2
    { virtualenvs := analyses,
      python_versions := python_versions,
      pip_versions := pip_versions,
      dependency_counts := fun package => pyCounter (dependencies_by_package package) }

/-- All dependency lines of environments whose `pip freeze` succeeded, in
traversal order. -/
def successful_freeze_lines (d : Dir) (root : String) (run : Run) : List String :=
  ((get_virtualenvs root d).map fun v =>
    (analyze_virtualenv run v).pip_freeze.getD []).flatten

theorem count_map_eq_length_filter {γ δ : Type} [BEq δ] (f : γ → δ) (x : δ) :
    ∀ l : List γ, (l.map f).count x = (l.filter fun a => f a == x).length := by
  intro l
  induction l with
  | nil => rfl
  | cons c rest ih =>
    by_cases h : (f c == x) = true
    · simp [List.count_cons, List.filter_cons, h, ih]
    · rw [Bool.not_eq_true] at h
      simp [List.count_cons, List.filter_cons, h, ih]

theorem count_filter_map_eq_count_pair (p v : String) :
    ∀ pairs : List (String × String),
      ((pairs.filter fun pv => pv.1 == p).map fun pv => pv.2).count v
        = pairs.count (p, v) := by
  intro pairs
  induction pairs with
  | nil => rfl
  | cons q rest ih =>
    by_cases h1 : q.1 = p
    · by_cases h2 : q.2 = v
      · have hq : q = (p, v) := Prod.ext_iff.mpr ⟨h1, h2⟩
        simp [List.filter_cons, List.count_cons, h1, h2, hq, ih]
      · have hq : q ≠ (p, v) := fun he => h2 (by rw [he])
        simp [List.filter_cons, List.count_cons, h1, h2, hq, ih]
    · have hq : q ≠ (p, v) := fun he => h1 (by rw [he])
      simp [List.filter_cons, List.count_cons, h1, hq, ih]

theorem pyUnpack2_ok {x : List String} {q : String × String}
    (h : pyUnpack2 x = .ok q) : x = [q.1, q.2] := by
  rcases x with _ | ⟨a, _ | ⟨b, _ | _⟩⟩ <;> simp [pyUnpack2] at h
  rw [← h]

theorem unpackAll_count (p v : String) :
    ∀ (deps : List (List String)) (pairs : List (String × String)),
      unpackAll deps = .ok pairs →
      pairs.count (p, v) = deps.count [p, v] := by
  intro deps
  induction deps with
  | nil =>
    intro pairs h
    simp only [unpackAll] at h
    cases h
    rfl
  | cons x xs ih =>
    intro pairs h
    simp only [unpackAll] at h
    cases hx : pyUnpack2 x with
    | error e => rw [hx] at h; simp [Except.bind] at h
    | ok q =>
      rw [hx] at h
      cases hr : unpackAll xs with
      | error e => rw [hr] at h; simp [Except.bind, Except.map] at h
      | ok qs =>
        rw [hr] at h
        simp only [Except.bind, Except.map, Except.ok.injEq] at h
        rw [← h]
        have hxq : x = [q.1, q.2] := pyUnpack2_ok hx
        by_cases he : q = (p, v)
        · have hx2 : x = [p, v] := by rw [hxq, he]
          simp [List.count_cons, he, hx2, ih qs hr]
        · have hx2 : x ≠ [p, v] := by
            rw [hxq]
            intro hc
            apply he
            have h1 : q.1 = p := by injection hc
            have h2 : q.2 = v := by
              have := hc
              injection this with _ h2
              injection h2
            exact Prod.ext_iff.mpr ⟨h1, h2⟩
          simp [List.count_cons, he, hx2, ih qs hr]

/-- C8 (amended): the dependency histogram maps a package name and a
version string to the number of dependency lines, across all environments
whose listing succeeded, that decompose to exactly that (package, version)
pair — counting lines, not environments, and defined only when every line
decomposes to a pair (otherwise `stats` raises). -/
theorem stats_dependency_histogram (d : Dir) (root : String) (run : Run)
    (st : StatsResult) (h : stats d root run = .ok st) (p v : String) :
    st.dependency_counts p v
      = ((successful_freeze_lines d root run).filter
          fun l => decompose_dependency l == [p, v]).length := by
  have h2 : (unpackAll (((get_virtualenvs root d).map
      fun v2 => (v2, analyze_virtualenv run v2)).map
        (fun a => (a.2.pip_freeze.getD []).map decompose_dependency)).flatten).map
      (fun pairs =>
        ({ virtualenvs := (get_virtualenvs root d).map
              fun v2 => (v2, analyze_virtualenv run v2),
           python_versions := pyCounter (((get_virtualenvs root d).map
              fun v2 => (v2, analyze_virtualenv run v2)).map fun a => a.2.python_version),
           pip_versions := pyCounter (((get_virtualenvs root d).map
              fun v2 => (v2, analyze_virtualenv run v2)).map fun a => a.2.pip_version),
           dependency_counts := fun package =>
             pyCounter ((pairs.filter fun pv => pv.1 == package).map fun pv => pv.2) }
          : StatsResult)) = Except.ok st := h
  cases hu : unpackAll (((get_virtualenvs root d).map
      fun v2 => (v2, analyze_virtualenv run v2)).map
        (fun a => (a.2.pip_freeze.getD []).map decompose_dependency)).flatten with
  | error e =>
    rw [hu] at h2
    simp [Except.map] at h2
  | ok pairs =>
    rw [hu] at h2
    simp only [Except.map, Except.ok.injEq] at h2
    rw [← h2]
    show ((pairs.filter fun pv => pv.1 == p).map fun pv => pv.2).count v = _
    rw [count_filter_map_eq_count_pair p v pairs, unpackAll_count p v _ pairs hu,
      List.map_map]
    have hdeps : ((get_virtualenvs root d).map
        ((fun a : String × ProbeResult =>
            (a.2.pip_freeze.getD []).map decompose_dependency)
          ∘ (fun v2 => (v2, analyze_virtualenv run v2)))).flatten
        = (successful_freeze_lines d root run).map decompose_dependency := by
      unfold successful_freeze_lines
      rw [List.map_flatten, List.map_map]
      rfl
    rw [hdeps, count_map_eq_length_filter]

/-- One environment whose dependency listing repeats the same line. -/
def dup_dep_tree : Dir := dir false [("env", venvLeaf)]

/-- Its process table: `pip freeze` succeeds with the line `a==1` twice. -/
def dup_dep_run : Run := fun cmd =>
  if cmd = ["r/env/bin/pip", "freeze"] then .completed ⟨0, "a==1\na==1", ""⟩
  else .completed ⟨0, "", ""⟩

/-- C8 counterexample: a single environment whose successful listing
contains `a==1` twice yields `dependency_counts["a"]["1"] = 2`, although
only one environment reports that pair — the histogram counts lines, not
environments. -/
theorem stats_counts_lines_not_environments :
    ((stats dup_dep_tree "r" dup_dep_run).map
        fun st => st.dependency_counts "a" "1").toOption = some 2
    ∧ ((get_virtualenvs "r" dup_dep_tree).filter fun v =>
        (((analyze_virtualenv dup_dep_run v).pip_freeze.getD []).map
          decompose_dependency).contains ["a", "1"]).length = 1 := by decide

/-- Two environments, at `r/e1` and `r/x/e2` (the second nested under a
non-environment so that the sibling-skipping loop still discovers both). -/
def two_env_tree : Dir :=
  dir false [("e1", venvLeaf), ("x", dir false [("e2", venvLeaf)])]

/-- Both environments report exactly `requests==2.31.0`. -/
def two_req_run : Run := fun cmd =>
  if cmd = ["r/e1/bin/pip", "freeze"] ∨ cmd = ["r/x/e2/bin/pip", "freeze"] then
    .completed ⟨0, "requests==2.31.0", ""⟩
  else .completed ⟨0, "", ""⟩

theorem stats_dependency_histogram_witness :
    ((stats two_env_tree "r" two_req_run).map
        fun st => st.dependency_counts "requests" "2.31.0").toOption = some 2 := by
  cases h : stats two_env_tree "r" two_req_run with
  | error e =>
    exfalso
    have hok : (stats two_env_tree "r" two_req_run).toOption.isSome = true := by decide
    rw [h] at hok
    simp [Except.toOption] at hok
  | ok st =>
    simp only [Except.map, Except.toOption, Option.some.injEq]
    rw [stats_dependency_histogram two_env_tree "r" two_req_run st h
      "requests" "2.31.0"]
    decide

theorem python_version_step_none (o : ProcOutcome) :
    ((python_version_step o).1 == none) = (python_version_step o).2.isSome := by
  rcases o with p | e
  · simp only [python_version_step]
    split_ifs <;> rfl
  · rfl

theorem pip_version_step_none (o : ProcOutcome) :
    ((pip_version_step o).1 == none) = (pip_version_step o).2.isSome := by
  rcases o with p | e
  · simp only [pip_version_step]
    split_ifs <;> rfl
  · rfl

/-- The interpreter probe has no recorded value exactly when it recorded
an error. -/
theorem analyze_python_none (run : Run) (d : String) :
    ((analyze_virtualenv run d).python_version == none)
      = (analyze_virtualenv run d).python_version_error.isSome := by
  rw [analyze_virtualenv_eq]
  exact python_version_step_none _

/-- The package-manager probe has no recorded value exactly when it
recorded an error. -/
theorem analyze_pip_none (run : Run) (d : String) :
    ((analyze_virtualenv run d).pip_version == none)
      = (analyze_virtualenv run d).pip_version_error.isSome := by
  rw [analyze_virtualenv_eq]
  exact pip_version_step_none _

/-- C9: the interpreter-version histogram counts, for each value, the
environments whose interpreter probe succeeded with exactly that value,
and its `none` bucket counts every environment whose interpreter probe
failed (recorded an error) — failed probes are bucketed, not omitted; the
package-manager-version histogram follows the identical scheme. -/
theorem stats_version_histograms (d : Dir) (root : String) (run : Run)
    (st : StatsResult) (h : stats d root run = .ok st) :
    (∀ s : String, st.python_versions (some s)
        = ((get_virtualenvs root d).filter fun v =>
            (analyze_virtualenv run v).python_version == some s).length)
    ∧ (st.python_versions none
        = ((get_virtualenvs root d).filter fun v =>
            (analyze_virtualenv run v).python_version_error.isSome).length)
    ∧ (∀ s : String, st.pip_versions (some s)
        = ((get_virtualenvs root d).filter fun v =>
            (analyze_virtualenv run v).pip_version == some s).length)
    ∧ (st.pip_versions none
        = ((get_virtualenvs root d).filter fun v =>
            (analyze_virtualenv run v).pip_version_error.isSome).length) := by
  have h2 : (unpackAll (((get_virtualenvs root d).map
      fun v2 => (v2, analyze_virtualenv run v2)).map
        (fun a => (a.2.pip_freeze.getD []).map decompose_dependency)).flatten).map
      (fun pairs =>
        ({ virtualenvs := (get_virtualenvs root d).map
              fun v2 => (v2, analyze_virtualenv run v2),
           python_versions := pyCounter (((get_virtualenvs root d).map
              fun v2 => (v2, analyze_virtualenv run v2)).map fun a => a.2.python_version),
           pip_versions := pyCounter (((get_virtualenvs root d).map
              fun v2 => (v2, analyze_virtualenv run v2)).map fun a => a.2.pip_version),
           dependency_counts := fun package =>
             pyCounter ((pairs.filter fun pv => pv.1 == package).map fun pv => pv.2) }
          : StatsResult)) = Except.ok st := h
  cases hu : unpackAll (((get_virtualenvs root d).map
      fun v2 => (v2, analyze_virtualenv run v2)).map
        (fun a => (a.2.pip_freeze.getD []).map decompose_dependency)).flatten with
  | error e =>
    rw [hu] at h2
    simp [Except.map] at h2
  | ok pairs =>
    rw [hu] at h2
    simp only [Except.map, Except.ok.injEq] at h2
    rw [← h2]
    refine ⟨fun s => ?_, ?_, fun s => ?_, ?_⟩
    · show (((get_virtualenvs root d).map
          fun v2 => (v2, analyze_virtualenv run v2)).map
            fun a => a.2.python_version).count (some s) = _
      rw [List.map_map, count_map_eq_length_filter]
      rfl
    · show (((get_virtualenvs root d).map
          fun v2 => (v2, analyze_virtualenv run v2)).map
            fun a => a.2.python_version).count none = _
      rw [List.map_map, count_map_eq_length_filter]
      apply congrArg List.length
      apply List.filter_congr
      intro v _
      exact analyze_python_none run v
    · show (((get_virtualenvs root d).map
          fun v2 => (v2, analyze_virtualenv run v2)).map
            fun a => a.2.pip_version).count (some s) = _
      rw [List.map_map, count_map_eq_length_filter]
      rfl
    · show (((get_virtualenvs root d).map
          fun v2 => (v2, analyze_virtualenv run v2)).map
            fun a => a.2.pip_version).count none = _
      rw [List.map_map, count_map_eq_length_filter]
      apply congrArg List.length
      apply List.filter_congr
      intro v _
      exact analyze_pip_none run v

/-- Environment `r/e1` reports interpreter `Python 3.10.0`; the probe of
`r/x/e2` fails to launch; every other command succeeds trivially. -/
def py_mixed_run : Run := fun cmd =>
  if cmd = ["r/e1/bin/python", "--version"] then
    .completed ⟨0, "Python 3.10.0\n", ""⟩
  else if cmd = ["r/x/e2/bin/python", "--version"] then
    .raised "FileNotFoundError"
  else .completed ⟨0, "", ""⟩

theorem stats_version_histograms_witness :
    ((stats two_env_tree "r" py_mixed_run).map
        fun st => (st.python_versions (some "Python 3.10.0"),
                   st.python_versions none)).toOption = some (1, 1) := by
  cases h : stats two_env_tree "r" py_mixed_run with
  | error e =>
    exfalso
    have hok : (stats two_env_tree "r" py_mixed_run).toOption.isSome = true := by decide
    rw [h] at hok
    simp [Except.toOption] at hok
  | ok st =>
    simp only [Except.map, Except.toOption, Option.some.injEq]
    have hth := stats_version_histograms two_env_tree "r" py_mixed_run st h
    rw [hth.1 "Python 3.10.0", hth.2.1]
    decide
